import Mathlib

/-!
Verification of the static-blog-image-downloader core against its source.

The Rust sources embedded here are:
* src/utils.rs      — get_path_ext
* src/regexp.rs     — RegexWrapper (collect_urls / replace_urls with the
                      pattern !\[.*?\]\((http[^\s)]*)\s*.*?\)) and Replacer
* src/downloader.rs — save_single, download_images, process_markdown

Strings are modelled as List Char (Rust str is UTF-8; byte-identity of
ASCII-compatible text corresponds to char-list identity, and hashing uses an
explicit UTF-8 byte encoder).  Effects (network, filesystem) are modelled as
explicit oracle functions passed in as parameters.
-/

/-- Unicode White_Space code points: the character class matched by the Rust
regex escape \s (default Unicode mode). -/
def rustIsWs (c : Char) : Bool :=
  c = '\t' ∨ c = '\n' ∨ c = Char.ofNat 0x0B ∨ c = Char.ofNat 0x0C ∨ c = '\r' ∨
  c = ' ' ∨ c = Char.ofNat 0x85 ∨ c = Char.ofNat 0xA0 ∨ c = Char.ofNat 0x1680 ∨
  (0x2000 ≤ c.toNat ∧ c.toNat ≤ 0x200A) ∨
  c = Char.ofNat 0x2028 ∨ c = Char.ofNat 0x2029 ∨ c = Char.ofNat 0x202F ∨
  c = Char.ofNat 0x205F ∨ c = Char.ofNat 0x3000

/-- Models Rust char::is_alphanumeric on the ASCII fragment (letters and
digits); URLs handled by the program are ASCII.  All theorems below use this
single predicate on both the code side and the specification side. -/
def rustIsAlphanumeric (c : Char) : Bool :=
  c.isAlphanum

/-- Rust str::rfind('.') followed by slicing from that byte index: returns the
suffix of the string starting at the LAST '.', if any ('.' is ASCII, so byte
index and char index coincide on char lists). -/
def rfindDotSuffix : List Char → Option (List Char)
  | [] => none
  | c :: rest =>
    match rfindDotSuffix rest with
    | some s => some s
    | none => if c = '.' then some (c :: rest) else none

/-- src/utils.rs get_path_ext: take the suffix from the last '.', accept it if
every character after the dot is alphanumeric (suffix.chars().skip(1)). -/
def get_path_ext (url : List Char) : Option (List Char) :=
  match rfindDotSuffix url with
  | none => none
  | some suffix =>
    if (suffix.drop 1).all rustIsAlphanumeric then some suffix else none

/-!
src/regexp.rs: the pattern !\[.*?\]\((http[^\s)]*)\s*.*?\) under the regex
crate's leftmost-first semantics, with . not matching '\n'.  A whole-construct
match starting at "![" extends the lazy alt part .*? minimally to a "](" that
is followed by a successful tail; the capture group is the literal "http"
followed by the maximal run of non-whitespace non-')' characters; then \s*
takes the maximal whitespace run and the lazy .*?\) consumes up to the first
')' reachable without crossing '\n' (greedy-first search is complete for this
pattern: giving characters back from [^\s)]* or \s* never enables a match
that the maximal runs do not).
-/

/-- One whole-construct match: pre is the unmatched text before it, alt the
text from the start of the match ("![...](") up to the capture group, url the
capture group, post the text from the end of the group to the ')' closing the
match. -/
structure Piece where
  pre : List Char
  alt : List Char
  url : List Char
  post : List Char
deriving DecidableEq, Repr

/-- The lazy .*?\) tail: consume up to and including the first ')', failing on
'\n' (which . cannot match). -/
def findClose : List Char → Option (List Char × List Char)
  | [] => none
  | c :: rest =>
    if c = ')' then some ([c], rest)
    else if c = '\n' then none
    else match findClose rest with
      | some (a, r) => some (c :: a, r)
      | none => none

/-- After "](": the literal "http", the maximal [^\s)]* run (the rest of
capture group 1), the maximal \s* run, then the lazy tail up to ')'.  Returns
(captured url, text from group end through ')', remainder). -/
def parseUrlTail : List Char → Option (List Char × List Char × List Char)
  | 'h' :: 't' :: 't' :: 'p' :: rest =>
    let run := rest.takeWhile (fun c => !(rustIsWs c || c = ')'))
    let r3 := rest.dropWhile (fun c => !(rustIsWs c || c = ')'))
    let ws := r3.takeWhile rustIsWs
    let r4 := r3.dropWhile rustIsWs
    match findClose r4 with
    | some (cl, r5) => some ('h' :: 't' :: 't' :: 'p' :: run, ws ++ cl, r5)
    | none => none
  | _ => none

/-- At a ']': require '(' and a successful url tail. -/
def bracketAttempt : List Char → Option (List Char × List Char × List Char × List Char)
  | '(' :: r2 =>
    match parseUrlTail r2 with
    | some (url, post, r3) => some ([']', '('], url, post, r3)
    | none => none
  | _ => none

/-- The lazy alt part .*? after "![": extend minimally to a ']' whose
continuation succeeds; on failure keep extending (']' itself may be consumed
by .*?), never across '\n'.  Returns (alt text from after "![" through "](",
url, post, remainder). -/
def altScan : List Char → Option (List Char × List Char × List Char × List Char)
  | [] => none
  | c :: rest =>
    match (if c = ']' then bracketAttempt rest else none) with
    | some res => some res
    | none =>
      if c = '\n' then none
      else match altScan rest with
        | some (a, u, p, r) => some (c :: a, u, p, r)
        | none => none

/-- A whole-construct match starting exactly at the head of the input. -/
def matchHere : List Char → Option (List Char × List Char × List Char × List Char)
  | '!' :: '[' :: rest =>
    match altScan rest with
    | some (a, u, p, r) => some ('!' :: '[' :: a, u, p, r)
    | none => none
  | _ => none

/-- find_iter: scan start positions left to right, at each position try a
whole-construct match, resume after a match's end (fuel-indexed; the input
length is always sufficient fuel since every step consumes at least one
character).  scanConsPre records a character at which no match starts: it is
prepended to the unmatched text before the next match (its pre field), or to
the trailing text when no further match exists. -/
def scanConsPre (c : Char) : List Piece × List Char → List Piece × List Char
  | ([], tr) => ([], c :: tr)
  | (q :: ps, tr) => (⟨c :: q.pre, q.alt, q.url, q.post⟩ :: ps, tr)

def scanF : Nat → List Char → List Piece × List Char
  | 0, s => ([], s)
  | _ + 1, [] => ([], [])
  | fuel + 1, c :: rest =>
    match matchHere (c :: rest) with
    | some (a, u, p, r) =>
      ((⟨[], a, u, p⟩ : Piece) :: (scanF fuel r).1, (scanF fuel r).2)
    | none => scanConsPre c (scanF fuel rest)

/-- All matches of the image regex in a document, with the unmatched text
around them: the list of pieces and the trailing text after the last match. -/
def scan (s : List Char) : List Piece × List Char :=
  scanF s.length s

/-- The original text of a piece (unmatched text before the construct, then
the construct itself). -/
def pieceOrig (p : Piece) : List Char :=
  p.pre ++ p.alt ++ p.url ++ p.post

/-- src/regexp.rs Replacer::replace_append for one match: when the captured
URL has an entry, emit the text before the URL span, the replacement link,
then the text after the URL span to the end of the construct; otherwise emit
the whole original construct.  (pre is the unmatched text replace_all copies
before the match.) -/
def applyPiece (mapping : List (List Char × List Char)) (p : Piece) : List Char :=
  p.pre ++
    match List.lookup p.url mapping with
    | some r => p.alt ++ r ++ p.post
    | none => p.alt ++ p.url ++ p.post

/-- src/regexp.rs RegexWrapper::replace_urls: regex.replace_all with the
Replacer over the URL → link mapping (the HashMap is modelled as an
association list keyed by exact string equality). -/
def replace_urls (contents : List Char) (mapping : List (List Char × List Char)) :
    List Char :=
  ((scan contents).1.map (applyPiece mapping)).flatten ++ (scan contents).2

/-- src/regexp.rs RegexWrapper::collect_urls: insert each match's captured
URL into the set (HashSet modelled as a duplicate-free list with
insert-if-absent). -/
def insertIfAbsent (set : List (List Char)) (u : List Char) : List (List Char) :=
  if u ∈ set then set else set ++ [u]

def collect_urls (contents : List Char) (set : List (List Char)) :
    List (List Char) :=
  ((scan contents).1.map Piece.url).foldl insertIfAbsent set

/-!
src/downloader.rs save_single: the filename is
sha1::Sha1::from(url.as_bytes()).hexdigest() plus the inferred extension.
SHA-1 is embedded below over lists of byte values (Nat < 256) with 32-bit
words as Nat reduced mod 2^32.
-/

def pow32 : Nat := 4294967296

/-- 32-bit left rotation of a word x < 2^32. -/
def rotl (k x : Nat) : Nat :=
  ((x <<< k) % pow32) ||| (x >>> (32 - k))

/-- UTF-8 encoding of one character (str::as_bytes byte values). -/
def utf8Bytes (c : Char) : List Nat :=
  let n := c.toNat
  if n < 0x80 then [n]
  else if n < 0x800 then [0xC0 + n / 64, 0x80 + n % 64]
  else if n < 0x10000 then [0xE0 + n / 4096, 0x80 + n / 64 % 64, 0x80 + n % 64]
  else [0xF0 + n / 0x40000, 0x80 + n / 4096 % 64, 0x80 + n / 64 % 64, 0x80 + n % 64]

/-- The UTF-8 bytes of a string (Rust str::as_bytes). -/
def strBytes (s : List Char) : List Nat :=
  (s.map utf8Bytes).flatten

/-- Big-endian 8-byte encoding of the 64-bit message length. -/
def be64 (n : Nat) : List Nat :=
  [n / 2 ^ 56 % 256, n / 2 ^ 48 % 256, n / 2 ^ 40 % 256, n / 2 ^ 32 % 256,
   n / 2 ^ 24 % 256, n / 2 ^ 16 % 256, n / 2 ^ 8 % 256, n % 256]

/-- SHA-1 padding: append 0x80, zero bytes to 56 mod 64, then the bit length. -/
def padBytes (msg : List Nat) : List Nat :=
  msg ++ [0x80] ++ List.replicate ((119 - msg.length % 64) % 64) 0 ++
    be64 (8 * msg.length)

/-- Big-endian 32-bit words of a chunk. -/
def toWords : List Nat → List Nat
  | b0 :: b1 :: b2 :: b3 :: rest =>
    (((b0 * 256 + b1) * 256 + b2) * 256 + b3) :: toWords rest
  | _ => []

/-- Message-schedule extension, words kept in reverse order:
w[i] = rotl1 (w[i-3] xor w[i-8] xor w[i-14] xor w[i-16]). -/
def extendW : Nat → List Nat → List Nat
  | 0, rev => rev
  | k + 1, rev =>
    extendW k (rotl 1 (Nat.xor (Nat.xor (rev.getD 2 0) (rev.getD 7 0))
      (Nat.xor (rev.getD 13 0) (rev.getD 15 0))) :: rev)

/-- One SHA-1 compression round at index i with schedule word w. -/
def sha1Round (st : Nat × Nat × Nat × Nat × Nat) (iw : Nat × Nat) :
    Nat × Nat × Nat × Nat × Nat :=
  match st, iw with
  | (a, b, c, d, e), (i, w) =>
    let f :=
      if i < 20 then Nat.lor (Nat.land b c) (Nat.land (pow32 - 1 - b) d)
      else if i < 40 then Nat.xor (Nat.xor b c) d
      else if i < 60 then Nat.lor (Nat.lor (Nat.land b c) (Nat.land b d)) (Nat.land c d)
      else Nat.xor (Nat.xor b c) d
    let k :=
      if i < 20 then 0x5A827999
      else if i < 40 then 0x6ED9EBA1
      else if i < 60 then 0x8F1BBCDC
      else 0xCA62C1D6
    ((rotl 5 a + f + e + k + w) % pow32, a, rotl 30 b, c, d)

/-- Process one 64-byte chunk. -/
def processChunk (h : Nat × Nat × Nat × Nat × Nat) (chunk : List Nat) :
    Nat × Nat × Nat × Nat × Nat :=
  let ws := (extendW 64 (toWords chunk).reverse).reverse
  match h, ((List.range 80).zip ws).foldl sha1Round h with
  | (h0, h1, h2, h3, h4), (a, b, c, d, e) =>
    ((h0 + a) % pow32, (h1 + b) % pow32, (h2 + c) % pow32,
     (h3 + d) % pow32, (h4 + e) % pow32)

/-- Split into 64-byte chunks (fuel-indexed; the list length is sufficient
fuel). -/
def chunksF : Nat → List Nat → List (List Nat)
  | 0, _ => []
  | _ + 1, [] => []
  | fuel + 1, l => l.take 64 :: chunksF fuel (l.drop 64)

def hexNibble (n : Nat) : Char :=
  if n < 10 then Char.ofNat (48 + n) else Char.ofNat (87 + n)

def hex8 (n : Nat) : List Char :=
  (List.range 8).map (fun i => hexNibble (n / 2 ^ (4 * (7 - i)) % 16))

/-- sha1::Sha1::from(bytes).hexdigest(): the lowercase hex SHA-1 digest. -/
def sha1_hexdigest (msg : List Nat) : List Char :=
  let padded := padBytes msg
  match (chunksF padded.length padded).foldl processChunk
      (0x67452301, 0xEFCDAB89, 0x98BADCFE, 0x10325476, 0xC3D2E1F0) with
  | (h0, h1, h2, h3, h4) => hex8 h0 ++ hex8 h1 ++ hex8 h2 ++ hex8 h3 ++ hex8 h4

/-- Rust Path::join (Unix): an absolute component replaces the base; push
adds a '/' separator unless the base is empty or already ends with one. -/
def path_join (base comp : List Char) : List Char :=
  if comp.head? = some '/' then comp
  else if base = [] then comp
  else if base.getLast? = some '/' then base ++ comp
  else base ++ '/' :: comp

/-- src/downloader.rs save_single, naming part: the hex SHA-1 digest of the
URL's bytes, with the inferred extension appended when present. -/
def save_single_file_name (url : List Char) : List Char :=
  sha1_hexdigest (strBytes url) ++
    match get_path_ext url with
    | some ext => ext
    | none => []

/-- src/downloader.rs save_single: compute the filename from the URL, then
write the fetched content to output_dir/filename; File::create / write_all
failure is modelled by the boolean write oracle. -/
def save_single (output_dir : List Char) (content : List Nat) (url : List Char)
    (fsWrite : List Char → List Nat → Bool) : Except Unit (List Char) :=
  if fsWrite (path_join output_dir (save_single_file_name url)) content then
    Except.ok (save_single_file_name url)
  else
    Except.error ()

/-- One fetch+save task of src/downloader.rs download_images: download_single
(None models any transport/timeout/non-OK-status failure), then save_single;
on success the link is PathBuf::from(prefix).join(filename) (the prefix
parameter is named pfx here). -/
def download_task (output_dir pfx : List Char)
    (fetch : List Char → Option (List Nat))
    (fsWrite : List Char → List Nat → Bool) (url : List Char) :
    Option (List Char) :=
  match fetch url with
  | none => none
  | some content =>
    match save_single output_dir content url fsWrite with
    | Except.ok name => some (path_join pfx name)
    | Except.error _ => none

/-- src/downloader.rs download_images over the deduplicated URL set: one task
per URL, each performing exactly one fetch (recorded in the returned trace);
a failed task records nothing and the remaining tasks still run; a
successful task records url -> link.  The mutex-protected HashMap is
modelled as an association list: concurrent interleaving only permutes the
insertion order of distinct keys, which lookup cannot observe; the
concurrency ceiling itself is modelled separately as a transition system. -/
def download_images (urls : List (List Char)) (output_dir pfx : List Char)
    (fetch : List Char → Option (List Nat))
    (fsWrite : List Char → List Nat → Bool) :
    List (List Char) × List (List Char × List Char) :=
  match urls with
  | [] => ([], [])
  | url :: rest =>
    let pr := download_images rest output_dir pfx fetch fsWrite
    (url :: pr.1,
      match download_task output_dir pfx fetch fsWrite url with
      | some link => (url, link) :: pr.2
      | none => pr.2)

/-- The URL set collected by process_markdown across all documents
(src/downloader.rs lines 33-41): collect_urls folded over the documents,
starting from the empty set. -/
def collect_all (docs : List (List Char)) : List (List Char) :=
  docs.foldl (fun set d => collect_urls d set) []

/-!
Concurrency ceiling of download_images (src/downloader.rs lines 89-141):
the dispatch loop acquires one of the K owned semaphore permits before
spawning a task (semaphore.clone().acquire_owned().await), the permit moves
into the task, and it is dropped exactly when the task reaches a terminal
state (early return on fetch/save failure, or drop(permit) at the end).
Modelled as an interleaved transition system over the scheduler state.
-/

/-- Scheduler state: free permits, spawned-but-not-terminal tasks (each
holding one permit), URLs not yet dispatched, terminal tasks. -/
structure SchedulerState where
  available : Nat
  inFlight : Nat
  pending : Nat
  finished : Nat
deriving DecidableEq, Repr

/-- Interleaved steps: dispatch blocks until a permit is free and consumes
it; a task finishing (success or failure) releases its permit. -/
inductive SchedulerStep : SchedulerState → SchedulerState → Prop
  | dispatch (s : SchedulerState) (hp : 0 < s.pending) (ha : 0 < s.available) :
      SchedulerStep s
        ⟨s.available - 1, s.inFlight + 1, s.pending - 1, s.finished⟩
  | finish (s : SchedulerState) (hf : 0 < s.inFlight) :
      SchedulerStep s
        ⟨s.available + 1, s.inFlight - 1, s.pending, s.finished + 1⟩

/-- States reachable from the initial state: K free permits, no task in
flight, N pending URLs. -/
inductive SchedulerReachable (K N : Nat) : SchedulerState → Prop
  | init : SchedulerReachable K N ⟨K, 0, N, 0⟩
  | step {s t : SchedulerState} : SchedulerReachable K N s →
      SchedulerStep s t → SchedulerReachable K N t

/-- src/downloader.rs ProcessError: a glob (enumeration) error or an io
(read/write) error, both propagated by the ? operator. -/
inductive ProcessError where
  | glob
  | io
deriving DecidableEq, Repr

/-- Collection phase of process_markdown (src/downloader.rs lines 32-41):
iterate the glob entries in order; a glob entry error or a file-read error
is propagated immediately; otherwise the document's URLs are inserted into
the set and its path is recorded. -/
def collect_phase (readFile : List Char → Except Unit (List Char)) :
    List (Except Unit (List Char)) → List (List Char) × List (List Char) →
    Except ProcessError (List (List Char) × List (List Char))
  | [], acc => Except.ok acc
  | entry :: rest, acc =>
    match entry with
    | Except.error _ => Except.error ProcessError.glob
    | Except.ok path =>
      match readFile path with
      | Except.error _ => Except.error ProcessError.io
      | Except.ok content =>
        collect_phase readFile rest
          (collect_urls content acc.1, acc.2 ++ [path])

/-- Rewrite phase of process_markdown (src/downloader.rs lines 60-64): for
each recorded path, re-read the file, rewrite it with the result mapping and
write it back; a read or write failure is propagated, aborting the remaining
writes (already-written documents are not rolled back). -/
def rewrite_phase (readFile : List Char → Except Unit (List Char))
    (writeFile : List Char → List Char → Except Unit Unit)
    (mapping : List (List Char × List Char)) :
    List (List Char) → Except ProcessError (List (List Char × List Char))
  | [] => Except.ok []
  | path :: rest =>
    match readFile path with
    | Except.error _ => Except.error ProcessError.io
    | Except.ok contents =>
      match writeFile path (replace_urls contents mapping) with
      | Except.error _ => Except.error ProcessError.io
      | Except.ok _ =>
        match rewrite_phase readFile writeFile mapping rest with
        | Except.error e => Except.error e
        | Except.ok written =>
          Except.ok ((path, replace_urls contents mapping) :: written)

/-- src/downloader.rs process_markdown: collection phase, then
download_images over the deduplicated set, then the rewrite phase.  The
returned fetch trace makes "downloads started" observable. -/
def process_markdown (entries : List (Except Unit (List Char)))
    (readFile : List Char → Except Unit (List Char))
    (writeFile : List Char → List Char → Except Unit Unit)
    (dir pfx : List Char)
    (fetch : List Char → Option (List Nat))
    (fsWrite : List Char → List Nat → Bool) :
    List (List Char) × Except ProcessError (List (List Char × List Char)) :=
  match collect_phase readFile entries ([], []) with
  | Except.error e => ([], Except.error e)
  | Except.ok (set, files) =>
    ((download_images set dir pfx fetch fsWrite).1,
      rewrite_phase readFile writeFile
        (download_images set dir pfx fetch fsWrite).2 files)

theorem rfindDotSuffix_eq_none {u : List Char} (h : '.' ∉ u) :
    rfindDotSuffix u = none := by
  induction u with
  | nil => rfl
  | cons c rest ih =>
    have hc : c ≠ '.' := fun hc => h (hc ▸ List.mem_cons_self c rest)
    have hr : '.' ∉ rest := fun hr => h (List.mem_cons_of_mem c hr)
    simp [rfindDotSuffix, ih hr, hc]

theorem rfindDotSuffix_eq_last {a b : List Char} (h : '.' ∉ b) :
    rfindDotSuffix (a ++ '.' :: b) = some ('.' :: b) := by
  induction a with
  | nil => simp [rfindDotSuffix, rfindDotSuffix_eq_none h]
  | cons c rest ih =>
    simp only [List.cons_append, rfindDotSuffix, List.append_eq, ih]

theorem get_path_ext_no_dot {u : List Char} (h : '.' ∉ u) :
    get_path_ext u = none := by
  simp [get_path_ext, rfindDotSuffix_eq_none h]

theorem get_path_ext_last_dot {a b : List Char} (h : '.' ∉ b) :
    get_path_ext (a ++ '.' :: b) =
      if b.all rustIsAlphanumeric then some ('.' :: b) else none := by
  simp [get_path_ext, rfindDotSuffix_eq_last h]

/-- C4: get_path_ext returns the substring from the last '.' to the end (dot
included) exactly when every character after that dot is alphanumeric, and
none otherwise; concretely "foo/bar.jpg" ↦ some ".jpg",
"foo/bar.jpg?x=1" ↦ none, "foo/bar" ↦ none. -/
theorem C4_get_path_ext_spec :
    (∀ a b : List Char, '.' ∉ b →
      get_path_ext (a ++ '.' :: b) =
        if b.all rustIsAlphanumeric then some ('.' :: b) else none) ∧
    (∀ u : List Char, '.' ∉ u → get_path_ext u = none) ∧
    get_path_ext "foo/bar.jpg".data = some ".jpg".data ∧
    get_path_ext "foo/bar.jpg?x=1".data = none ∧
    get_path_ext "foo/bar".data = none := by
  refine ⟨fun a b h => get_path_ext_last_dot h,
          fun u h => get_path_ext_no_dot h, ?_, ?_, ?_⟩ <;> decide

/-- Witness for C4 at a concrete split: "xy.z1" has its last dot before "z1",
all-alphanumeric, so the extension ".z1" is returned. -/
theorem C4_get_path_ext_spec_witness :
    get_path_ext ("xy".data ++ '.' :: "z1".data) = some ('.' :: "z1".data) := by
  have h := C4_get_path_ext_spec.1 "xy".data "z1".data (by decide)
  simpa using h

theorem findClose_append {s a r : List Char} (h : findClose s = some (a, r)) :
    s = a ++ r := by
  induction s generalizing a r with
  | nil => simp [findClose] at h
  | cons c rest ih =>
    by_cases hc : c = ')'
    · simp [findClose, hc] at h
      simp [← h.1, ← h.2, hc]
    · by_cases hn : c = '\n'
      · simp [findClose, hc, hn] at h
      · simp only [findClose, if_neg hc, if_neg hn] at h
        match hfc : findClose rest with
        | some (a0, r0) =>
          rw [hfc] at h
          simp at h
          obtain ⟨h1, h2⟩ := h
          subst h1
          subst h2
          simp [ih hfc]
        | none => rw [hfc] at h; simp at h

theorem parseUrlTail_append {s u p r : List Char}
    (h : parseUrlTail s = some (u, p, r)) : s = u ++ p ++ r := by
  unfold parseUrlTail at h
  split at h
  next rest =>
    dsimp only at h
    split at h
    next cl r5 hfc =>
      simp only [Option.some.injEq, Prod.mk.injEq] at h
      obtain ⟨hu, hp, hr⟩ := h
      subst hu
      subst hp
      subst hr
      have h1 := findClose_append hfc
      have h2 := List.takeWhile_append_dropWhile
        (p := fun c => !(rustIsWs c || c = ')')) (l := rest)
      have h3 := List.takeWhile_append_dropWhile (p := rustIsWs)
        (l := rest.dropWhile (fun c => !(rustIsWs c || c = ')')))
      simp only [List.cons_append, List.cons.injEq, true_and]
      calc rest
          = rest.takeWhile (fun c => !(rustIsWs c || c = ')')) ++
              rest.dropWhile (fun c => !(rustIsWs c || c = ')')) := h2.symm
        _ = rest.takeWhile (fun c => !(rustIsWs c || c = ')')) ++
              (((rest.dropWhile (fun c => !(rustIsWs c || c = ')'))).takeWhile rustIsWs) ++
               ((rest.dropWhile (fun c => !(rustIsWs c || c = ')'))).dropWhile rustIsWs)) := by
            rw [h3]
        _ = _ := by rw [h1]; simp [List.append_assoc]
    next => simp at h
  next => simp at h

theorem bracketAttempt_append {s a u p r : List Char}
    (h : bracketAttempt s = some (a, u, p, r)) :
    ']' :: s = a ++ u ++ p ++ r := by
  unfold bracketAttempt at h
  split at h
  next r2 =>
    split at h
    next url post r3 hput =>
      simp only [Option.some.injEq, Prod.mk.injEq] at h
      obtain ⟨ha, hu, hp, hr⟩ := h
      subst ha
      subst hu
      subst hp
      subst hr
      have := parseUrlTail_append hput
      simp [this]
    next => simp at h
  next => simp at h

theorem altScan_append {s a u p r : List Char}
    (h : altScan s = some (a, u, p, r)) : s = a ++ u ++ p ++ r := by
  induction s generalizing a u p r with
  | nil => simp [altScan] at h
  | cons c rest ih =>
    unfold altScan at h
    split at h
    next res hbr =>
      by_cases hc : c = ']'
      · rw [if_pos hc] at hbr
        simp only [Option.some.injEq] at h
        subst h
        have := bracketAttempt_append hbr
        rw [hc, this]
      · rw [if_neg hc] at hbr
        simp at hbr
    next hbr =>
      split at h
      next hn => simp at h
      next hn =>
        split at h
        next a0 u0 p0 r0 hrec =>
          simp only [Option.some.injEq, Prod.mk.injEq] at h
          obtain ⟨ha, hu, hp, hr⟩ := h
          subst ha
          subst hu
          subst hp
          subst hr
          simp [ih hrec]
        next => simp at h

theorem matchHere_append {s a u p r : List Char}
    (h : matchHere s = some (a, u, p, r)) : s = a ++ u ++ p ++ r := by
  unfold matchHere at h
  split at h
  next rest =>
    split at h
    next a0 u0 p0 r0 hrec =>
      simp only [Option.some.injEq, Prod.mk.injEq] at h
      obtain ⟨ha, hu, hp, hr⟩ := h
      subst ha
      subst hu
      subst hp
      subst hr
      simp [altScan_append hrec]
    next => simp at h
  next => simp at h

theorem findClose_shape {s a r : List Char} (h : findClose s = some (a, r)) :
    ∃ q, a = q ++ [')'] := by
  induction s generalizing a r with
  | nil => simp [findClose] at h
  | cons c rest ih =>
    by_cases hc : c = ')'
    · simp [findClose, hc] at h
      exact ⟨[], by simp [← h.1, hc]⟩
    · by_cases hn : c = '\n'
      · simp [findClose, hc, hn] at h
      · simp only [findClose, if_neg hc, if_neg hn] at h
        match hfc : findClose rest with
        | some (a0, r0) =>
          rw [hfc] at h
          simp at h
          obtain ⟨q, hq⟩ := ih hfc
          exact ⟨c :: q, by simp [← h.1, hq]⟩
        | none => rw [hfc] at h; simp at h

theorem parseUrlTail_shape {s u p r : List Char}
    (h : parseUrlTail s = some (u, p, r)) :
    (∃ t, u = 'h' :: 't' :: 't' :: 'p' :: t) ∧ ∃ q, p = q ++ [')'] := by
  unfold parseUrlTail at h
  split at h
  next rest =>
    dsimp only at h
    split at h
    next cl r5 hfc =>
      simp only [Option.some.injEq, Prod.mk.injEq] at h
      obtain ⟨hu, hp, hr⟩ := h
      subst hu
      subst hp
      obtain ⟨q, hq⟩ := findClose_shape hfc
      subst hq
      exact ⟨⟨_, rfl⟩, ⟨_, (List.append_assoc _ _ _).symm⟩⟩
    next => simp at h
  next => simp at h

theorem bracketAttempt_shape {s a u p r : List Char}
    (h : bracketAttempt s = some (a, u, p, r)) :
    a = [']', '('] ∧ (∃ t, u = 'h' :: 't' :: 't' :: 'p' :: t) ∧
      ∃ q, p = q ++ [')'] := by
  unfold bracketAttempt at h
  split at h
  next r2 =>
    split at h
    next url post r3 hput =>
      simp only [Option.some.injEq, Prod.mk.injEq] at h
      obtain ⟨ha, hu, hp, hr⟩ := h
      obtain ⟨hsu, hsp⟩ := parseUrlTail_shape hput
      exact ⟨ha.symm, by rw [← hu]; exact hsu, by rw [← hp]; exact hsp⟩
    next => simp at h
  next => simp at h

theorem altScan_shape {s a u p r : List Char}
    (h : altScan s = some (a, u, p, r)) :
    (∃ t, u = 'h' :: 't' :: 't' :: 'p' :: t) ∧ ∃ q, p = q ++ [')'] := by
  induction s generalizing a u p r with
  | nil => simp [altScan] at h
  | cons c rest ih =>
    unfold altScan at h
    split at h
    next res hbr =>
      by_cases hc : c = ']'
      · rw [if_pos hc] at hbr
        simp only [Option.some.injEq] at h
        subst h
        exact (bracketAttempt_shape hbr).2
      · rw [if_neg hc] at hbr
        simp at hbr
    next hbr =>
      split at h
      next hn => simp at h
      next hn =>
        split at h
        next a0 u0 p0 r0 hrec =>
          simp only [Option.some.injEq, Prod.mk.injEq] at h
          obtain ⟨ha, hu, hp, hr⟩ := h
          obtain ⟨hsu, hsp⟩ := ih hrec
          exact ⟨by rw [← hu]; exact hsu, by rw [← hp]; exact hsp⟩
        next => simp at h

theorem matchHere_shape {s a u p r : List Char}
    (h : matchHere s = some (a, u, p, r)) :
    (∃ mid, a = '!' :: '[' :: mid) ∧
      (∃ t, u = 'h' :: 't' :: 't' :: 'p' :: t) ∧ ∃ q, p = q ++ [')'] := by
  unfold matchHere at h
  split at h
  next rest =>
    split at h
    next a0 u0 p0 r0 hrec =>
      simp only [Option.some.injEq, Prod.mk.injEq] at h
      obtain ⟨ha, hu, hp, hr⟩ := h
      obtain ⟨hsu, hsp⟩ := altScan_shape hrec
      exact ⟨⟨a0, ha.symm⟩, by rw [← hu]; exact hsu, by rw [← hp]; exact hsp⟩
    next => simp at h
  next => simp at h

theorem scanConsPre_rebuild (c : Char) (pr : List Piece × List Char) :
    ((scanConsPre c pr).1.map pieceOrig).flatten ++ (scanConsPre c pr).2 =
      c :: ((pr.1.map pieceOrig).flatten ++ pr.2) := by
  rcases pr with ⟨ps, tr⟩
  cases ps with
  | nil => simp [scanConsPre]
  | cons q ps2 => simp [scanConsPre, pieceOrig]

theorem scanF_decompose :
    ∀ (fuel : Nat) (s : List Char), s.length ≤ fuel →
      ((scanF fuel s).1.map pieceOrig).flatten ++ (scanF fuel s).2 = s := by
  intro fuel
  induction fuel with
  | zero => intro s hs; simp [scanF]
  | succ n ih =>
    intro s hs
    match s with
    | [] => simp [scanF]
    | c :: rest =>
      match hm : matchHere (c :: rest) with
      | some (a, u, p, r) =>
        have hdec := matchHere_append hm
        obtain ⟨⟨mid, hmid⟩, _, _⟩ := matchHere_shape hm
        have hlen : r.length ≤ n := by
          have hl := congrArg List.length hdec
          rw [hmid] at hl
          simp only [List.length_cons, List.length_append] at hl
          simp only [List.length_cons] at hs
          omega
        have ihr := ih r hlen
        simp only [scanF, hm, List.map_cons, List.flatten_cons, pieceOrig,
          List.nil_append, List.append_assoc]
        rw [ihr]
        have := hdec.symm
        simpa [List.append_assoc] using this
      | none =>
        have hlen : rest.length ≤ n := by
          simp only [List.length_cons] at hs
          omega
        have hrest := ih rest hlen
        simp only [scanF, hm, scanConsPre_rebuild, hrest]

/-- The non-overlapping leftmost matches of the regex, plus trailing text,
reassemble to the input document. -/
theorem scan_decompose (s : List Char) :
    ((scan s).1.map pieceOrig).flatten ++ (scan s).2 = s :=
  scanF_decompose s.length s le_rfl

theorem scanConsPre_mem {c : Char} {pr : List Piece × List Char} {p : Piece}
    (hp : p ∈ (scanConsPre c pr).1) :
    ∃ q ∈ pr.1, p.alt = q.alt ∧ p.url = q.url ∧ p.post = q.post := by
  rcases pr with ⟨ps, tr⟩
  cases ps with
  | nil => simp [scanConsPre] at hp
  | cons q ps2 =>
    simp only [scanConsPre, List.mem_cons] at hp
    rcases hp with hp | hp
    · exact ⟨q, List.mem_cons_self q ps2, by simp [hp]⟩
    · exact ⟨p, List.mem_cons_of_mem q hp, rfl, rfl, rfl⟩

theorem scanF_shape :
    ∀ (fuel : Nat) (s : List Char) (p : Piece), p ∈ (scanF fuel s).1 →
      (∃ mid, p.alt = '!' :: '[' :: mid) ∧
      (∃ t, p.url = 'h' :: 't' :: 't' :: 'p' :: t) ∧
      (∃ q, p.post = q ++ [')']) := by
  intro fuel
  induction fuel with
  | zero => intro s p hp; simp [scanF] at hp
  | succ n ih =>
    intro s p hp
    match s with
    | [] => simp [scanF] at hp
    | c :: rest =>
      match hm : matchHere (c :: rest) with
      | some (a, u, pp, r) =>
        simp only [scanF, hm, List.mem_cons] at hp
        rcases hp with hp | hp
        · subst hp
          exact matchHere_shape hm
        · exact ih r p hp
      | none =>
        simp only [scanF, hm] at hp
        obtain ⟨q, hq, ha, hu, hpo⟩ := scanConsPre_mem hp
        obtain ⟨s1, s2, s3⟩ := ih rest q hq
        exact ⟨ha ▸ s1, hu ▸ s2, hpo ▸ s3⟩

/-- Every piece produced by scanning is a genuine image-embed construct: its
alt text starts with "![", its captured URL starts with the literal "http",
and its post text ends with the closing ')'. -/
theorem scan_shape {s : List Char} {p : Piece} (hp : p ∈ (scan s).1) :
    (∃ mid, p.alt = '!' :: '[' :: mid) ∧
    (∃ t, p.url = 'h' :: 't' :: 't' :: 'p' :: t) ∧
    (∃ q, p.post = q ++ [')']) :=
  scanF_shape s.length s p hp

/-- C9: identity on the empty mapping — rewriting any document with no
resolved URLs is a byte-identical no-op: every matched construct takes the
keep-original branch and unmatched text is copied verbatim. -/
theorem C9_replace_urls_empty_identity (contents : List Char) :
    replace_urls contents [] = contents := by
  have h : applyPiece [] = pieceOrig := by
    funext p
    simp [applyPiece, pieceOrig, List.lookup]
  unfold replace_urls
  rw [h]
  exact scan_decompose contents

/-- C1: span preservation on resolution.  The input document decomposes into
the scanned pieces plus trailing text; replace_urls re-emits, for each
construct whose captured URL is a key of the mapping, the construct's text
before the URL span, then the mapping's link, then the text after the URL
span to the end of the construct; every scanned piece is a genuine
image-embed construct; and concretely ![alt](http://x/a.png "title") with a
resolved URL becomes ![alt](<link> "title") with the alt text, title and
closing punctuation byte-identical to the input. -/
theorem C1_replace_urls_span_preservation
    (contents : List Char) (mapping : List (List Char × List Char)) :
    (contents = ((scan contents).1.map pieceOrig).flatten ++ (scan contents).2) ∧
    (replace_urls contents mapping =
      ((scan contents).1.map (applyPiece mapping)).flatten ++ (scan contents).2) ∧
    (∀ p ∈ (scan contents).1, ∀ link, List.lookup p.url mapping = some link →
      applyPiece mapping p = p.pre ++ p.alt ++ link ++ p.post) ∧
    (∀ p ∈ (scan contents).1,
      (∃ mid, p.alt = '!' :: '[' :: mid) ∧
      (∃ t, p.url = 'h' :: 't' :: 't' :: 'p' :: t) ∧
      (∃ q, p.post = q ++ [')'])) ∧
    replace_urls "![alt](http://x/a.png \"title\")".data
        [("http://x/a.png".data, "/images/abc.png".data)] =
      "![alt](/images/abc.png \"title\")".data := by
  refine ⟨(scan_decompose contents).symm, rfl, ?_, fun p hp => scan_shape hp,
    by decide⟩
  intro p hp link hlink
  simp [applyPiece, hlink, List.append_assoc]

/-- Witness for C1: in ![alt](http://x/a.png "title") with the URL resolved
to /i/a.png, the single matched piece is rewritten to its pre-URL text, the
link, then its post-URL text. -/
theorem C1_replace_urls_span_preservation_witness :
    applyPiece [("http://x/a.png".data, "/i/a.png".data)]
        ((scan "![alt](http://x/a.png \"title\")".data).1.getD 0 ⟨[], [], [], []⟩) =
      ((scan "![alt](http://x/a.png \"title\")".data).1.getD 0 ⟨[], [], [], []⟩).pre ++
      ((scan "![alt](http://x/a.png \"title\")".data).1.getD 0 ⟨[], [], [], []⟩).alt ++
      "/i/a.png".data ++
      ((scan "![alt](http://x/a.png \"title\")".data).1.getD 0 ⟨[], [], [], []⟩).post :=
  (C1_replace_urls_span_preservation "![alt](http://x/a.png \"title\")".data
      [("http://x/a.png".data, "/i/a.png".data)]).2.2.1 _ (by decide) _ (by decide)

/-- C2: frame effect — the document decomposes into unmatched text and
matched constructs; replace_urls rebuilds it with the unmatched text (pre
fields and trailing text) byte-identical, every construct whose URL has no
mapping entry byte-identical (keep-original branch), and only the URL spans
of constructs whose URL is present may change; concretely a document whose
construct's URL is absent from a non-empty mapping is returned unchanged. -/
theorem C2_replace_urls_frame
    (contents : List Char) (mapping : List (List Char × List Char)) :
    (contents = ((scan contents).1.map pieceOrig).flatten ++ (scan contents).2) ∧
    (replace_urls contents mapping =
      ((scan contents).1.map (applyPiece mapping)).flatten ++ (scan contents).2) ∧
    (∀ p ∈ (scan contents).1, List.lookup p.url mapping = none →
      applyPiece mapping p = pieceOrig p) ∧
    replace_urls "x ![a](http://u) y".data [("http://v".data, "/L".data)] =
      "x ![a](http://u) y".data := by
  refine ⟨(scan_decompose contents).symm, rfl, ?_, by decide⟩
  intro p hp hnone
  simp [applyPiece, pieceOrig, hnone, List.append_assoc]

/-- Witness for C2: the construct ![a](http://u) whose URL is not a key of
the mapping is emitted byte-identically (keep-original branch). -/
theorem C2_replace_urls_frame_witness :
    applyPiece [("http://v".data, "/L".data)]
        ((scan "x ![a](http://u) y".data).1.getD 0 ⟨[], [], [], []⟩) =
      pieceOrig ((scan "x ![a](http://u) y".data).1.getD 0 ⟨[], [], [], []⟩) :=
  (C2_replace_urls_frame "x ![a](http://u) y".data
      [("http://v".data, "/L".data)]).2.2.1 _ (by decide) (by decide)

set_option maxRecDepth 100000 in
example : sha1_hexdigest (strBytes "abc".data) =
    "a9993e364706816aba3e25717850c26c9cd0d89d".data := by decide

set_option maxRecDepth 100000 in
example : sha1_hexdigest (strBytes "https://i.v2ex.co/R7yApIA5s.jpeg".data) =
    "e3d093edf299313347493eed24e85330ea22eafc".data := by decide

/-- C3: the filename produced by save_single is a deterministic function of
the URL alone — the hex SHA-1 digest of the URL's raw bytes concatenated
with the inferred extension — so two successful calls with the same URL and
any two byte contents (any directories, any write outcomes) return the
identical filename; the fetched content never influences the name. -/
theorem C3_save_single_name_deterministic
    (dir1 dir2 url : List Char) (c1 c2 : List Nat)
    (w1 w2 : List Char → List Nat → Bool) (n1 n2 : List Char)
    (h1 : save_single dir1 c1 url w1 = Except.ok n1)
    (h2 : save_single dir2 c2 url w2 = Except.ok n2) :
    n1 = n2 ∧
      n1 = sha1_hexdigest (strBytes url) ++
        (match get_path_ext url with | some ext => ext | none => []) := by
  unfold save_single at h1 h2
  split at h1
  · split at h2
    · simp only [Except.ok.injEq] at h1 h2
      subst h1
      subst h2
      exact ⟨rfl, rfl⟩
    · exact absurd h2 (by simp)
  · exact absurd h1 (by simp)

set_option maxRecDepth 100000 in
/-- Witness for C3: saving http://a/b.png twice with different contents, in
different directories, yields the same filename — the SHA-1 digest of the
URL plus the ".png" extension. -/
theorem C3_save_single_name_deterministic_witness :
    "abbe6a7c1498f86aad7931cad604242983ac60ab.png".data =
        "abbe6a7c1498f86aad7931cad604242983ac60ab.png".data ∧
      "abbe6a7c1498f86aad7931cad604242983ac60ab.png".data =
        sha1_hexdigest (strBytes "http://a/b.png".data) ++
          (match get_path_ext "http://a/b.png".data with
            | some ext => ext
            | none => []) :=
  C3_save_single_name_deterministic "o1".data "o2".data "http://a/b.png".data
    [1] [2, 3] (fun _ _ => true) (fun _ _ => true) _ _ (by rfl) (by rfl)

set_option maxRecDepth 100000 in
/-- C10: for every URL ending in '.', the empty suffix after the final dot
vacuously passes the all-alphanumeric check, so get_path_ext returns
some "." and save_single names the file digest-plus-trailing-dot rather than
appending no extension; concretely for http://a/b. the name is the digest
followed by '.'. -/
theorem C10_trailing_dot_extension :
    (∀ u : List Char, get_path_ext (u ++ ['.']) = some ['.']) ∧
    (∀ u : List Char,
      save_single_file_name (u ++ ['.']) =
        sha1_hexdigest (strBytes (u ++ ['.'])) ++ ['.']) ∧
    save_single_file_name "http://a/b.".data =
      "b16f0820594d87eb5f10662040654cd5509176b0.".data := by
  have hext : ∀ u : List Char, get_path_ext (u ++ ['.']) = some ['.'] := by
    intro u
    have h := get_path_ext_last_dot (a := u) (b := []) (by simp)
    simpa using h
  refine ⟨hext, fun u => ?_, by decide⟩
  unfold save_single_file_name
  rw [hext u]

theorem hex8_head (n : Nat) :
    (hex8 n).head? = some (hexNibble (n / 2 ^ 28 % 16)) := rfl

theorem hexNibble_ne_slash : ∀ m : Nat, m < 16 → hexNibble m ≠ '/' := by decide

theorem sha1_hexdigest_head_ne_slash (msg : List Nat) :
    (sha1_hexdigest msg).head? ≠ some '/' := by
  unfold sha1_hexdigest
  dsimp only
  rcases hfold : (chunksF (padBytes msg).length (padBytes msg)).foldl processChunk
      (0x67452301, 0xEFCDAB89, 0x98BADCFE, 0x10325476, 0xC3D2E1F0) with
    ⟨h0, h1, h2, h3, h4⟩
  dsimp only
  rw [List.append_assoc, List.append_assoc, List.append_assoc,
    List.head?_append_of_ne_nil]
  · rw [hex8_head]
    simp only [ne_eq, Option.some.injEq]
    exact hexNibble_ne_slash _ (Nat.mod_lt _ (by norm_num))
  · intro hnil
    have := congrArg List.length hnil
    simp [hex8] at this

/-- The saved filename starts with a hex digit, never '/'. -/
theorem save_single_file_name_head_ne_slash (url : List Char) :
    (save_single_file_name url).head? ≠ some '/' := by
  unfold save_single_file_name
  rw [List.head?_append_of_ne_nil]
  · exact sha1_hexdigest_head_ne_slash (strBytes url)
  · intro hnil
    have := sha1_hexdigest_head_ne_slash (strBytes url)
    rw [hnil] at this
    have hlen := congrArg List.length hnil
    unfold sha1_hexdigest at hlen
    dsimp only at hlen
    rcases (chunksF (padBytes (strBytes url)).length
        (padBytes (strBytes url))).foldl processChunk
        (0x67452301, 0xEFCDAB89, 0x98BADCFE, 0x10325476, 0xC3D2E1F0) with
      ⟨h0, h1, h2, h3, h4⟩
    simp [hex8] at hlen

theorem path_join_eq {pfx name : List Char} (hp1 : pfx ≠ [])
    (hp2 : pfx.getLast? ≠ some '/') (hn : name.head? ≠ some '/') :
    path_join pfx name = pfx ++ '/' :: name := by
  simp [path_join, hn, hp1, hp2]

theorem download_images_trace (urls : List (List Char)) (dir pfx : List Char)
    (fetch : List Char → Option (List Nat))
    (fsWrite : List Char → List Nat → Bool) :
    (download_images urls dir pfx fetch fsWrite).1 = urls := by
  induction urls with
  | nil => rfl
  | cons url rest ih => simp [download_images, ih]

theorem download_images_mapping (urls : List (List Char)) (dir pfx : List Char)
    (fetch : List Char → Option (List Nat))
    (fsWrite : List Char → List Nat → Bool) :
    (download_images urls dir pfx fetch fsWrite).2 =
      urls.filterMap (fun url =>
        (download_task dir pfx fetch fsWrite url).map (fun l => (url, l))) := by
  induction urls with
  | nil => rfl
  | cons url rest ih =>
    simp only [download_images, List.filterMap_cons]
    match h : download_task dir pfx fetch fsWrite url with
    | some link => simp [h, ih]
    | none => simp [h, ih]

theorem download_images_lookup {urls : List (List Char)} (dir pfx : List Char)
    (fetch : List Char → Option (List Nat))
    (fsWrite : List Char → List Nat → Bool)
    (hnd : urls.Nodup) (u : List Char) :
    List.lookup u (download_images urls dir pfx fetch fsWrite).2 =
      if u ∈ urls then download_task dir pfx fetch fsWrite u else none := by
  rw [download_images_mapping]
  induction urls with
  | nil => simp
  | cons v rest ih =>
    have hnd2 : rest.Nodup := hnd.of_cons
    by_cases hu : u = v
    · subst hu
      have hnm : u ∉ rest := by
        intro hmem
        exact (List.nodup_cons.mp hnd).1 hmem
      match h : download_task dir pfx fetch fsWrite u with
      | some link =>
        simp only [List.filterMap_cons, h, Option.map_some']
        rw [List.lookup, beq_self_eq_true]
        simp [h]
      | none =>
        simp only [List.filterMap_cons, h, Option.map_none']
        rw [ih hnd2]
        simp [hnm, h]
    · match h : download_task dir pfx fetch fsWrite v with
      | some link =>
        simp only [List.filterMap_cons, h, Option.map_some']
        rw [List.lookup, beq_false_of_ne hu]
        rw [ih hnd2]
        simp [hu]
      | none =>
        simp only [List.filterMap_cons, h, Option.map_none']
        rw [ih hnd2]
        simp [hu]

/-- C5: for every deduplicated input URL set, the mapping returned by
download_images has an entry url -> pfx + "/" + filename for exactly those
URLs whose fetch and save both succeeded; when fetch or save fails for a
URL, nothing is recorded for it while every task still runs (the fetch trace
is the whole input set), and the mapping's size is at most the input set's
size (strictly smaller when a task failed). -/
theorem C5_download_images_success_mapping
    (urls : List (List Char)) (dir pfx : List Char)
    (fetch : List Char → Option (List Nat))
    (fsWrite : List Char → List Nat → Bool)
    (hnd : urls.Nodup) (hp1 : pfx ≠ []) (hp2 : pfx.getLast? ≠ some '/') :
    (∀ u ∈ urls, ∀ c, fetch u = some c →
      fsWrite (path_join dir (save_single_file_name u)) c = true →
      List.lookup u (download_images urls dir pfx fetch fsWrite).2 =
        some (pfx ++ '/' :: save_single_file_name u)) ∧
    (∀ u ∈ urls, fetch u = none →
      List.lookup u (download_images urls dir pfx fetch fsWrite).2 = none) ∧
    (∀ u ∈ urls, ∀ c, fetch u = some c →
      fsWrite (path_join dir (save_single_file_name u)) c = false →
      List.lookup u (download_images urls dir pfx fetch fsWrite).2 = none) ∧
    (∀ u, u ∉ urls →
      List.lookup u (download_images urls dir pfx fetch fsWrite).2 = none) ∧
    (download_images urls dir pfx fetch fsWrite).1 = urls ∧
    (download_images urls dir pfx fetch fsWrite).2.length ≤ urls.length := by
  refine ⟨?_, ?_, ?_, ?_, download_images_trace urls dir pfx fetch fsWrite, ?_⟩
  · intro u hu c hc hw
    rw [download_images_lookup dir pfx fetch fsWrite hnd u, if_pos hu]
    unfold download_task
    rw [hc]
    simp only [save_single, hw, if_true]
    rw [path_join_eq hp1 hp2 (save_single_file_name_head_ne_slash u)]
  · intro u hu hc
    rw [download_images_lookup dir pfx fetch fsWrite hnd u, if_pos hu]
    unfold download_task
    rw [hc]
  · intro u hu c hc hw
    rw [download_images_lookup dir pfx fetch fsWrite hnd u, if_pos hu]
    unfold download_task
    rw [hc]
    simp [save_single, hw]
  · intro u hu
    rw [download_images_lookup dir pfx fetch fsWrite hnd u, if_neg hu]
  · rw [download_images_mapping]
    exact List.length_filterMap_le _ _

/-- Witness for C5: a one-element URL set with a succeeding fetch and write
records exactly the link pfx + "/" + filename for that URL. -/
theorem C5_download_images_success_mapping_witness :
    List.lookup "http://u".data
        (download_images ["http://u".data] "o".data "/img".data
          (fun _ => some [7]) (fun _ _ => true)).2 =
      some ("/img".data ++ '/' :: save_single_file_name "http://u".data) :=
  (C5_download_images_success_mapping ["http://u".data] "o".data "/img".data
      (fun _ => some [7]) (fun _ _ => true) (by decide) (by decide)
      (by decide)).1 "http://u".data (by decide) [7] rfl rfl

theorem mem_insertIfAbsent {s : List (List Char)} {u v : List Char} :
    v ∈ insertIfAbsent s u ↔ v ∈ s ∨ v = u := by
  unfold insertIfAbsent
  by_cases h : u ∈ s
  · simp only [if_pos h]
    constructor
    · exact fun hv => Or.inl hv
    · rintro (hv | hv)
      · exact hv
      · exact hv ▸ h
  · simp [if_neg h]

theorem nodup_insertIfAbsent {s : List (List Char)} {u : List Char}
    (h : s.Nodup) : (insertIfAbsent s u).Nodup := by
  unfold insertIfAbsent
  by_cases hm : u ∈ s
  · simpa [if_pos hm] using h
  · rw [if_neg hm]
    simpa [List.nodup_append] using ⟨h, hm⟩

theorem foldl_insertIfAbsent_mem :
    ∀ (us : List (List Char)) (set : List (List Char)) (v : List Char),
      v ∈ us.foldl insertIfAbsent set ↔ v ∈ set ∨ v ∈ us := by
  intro us
  induction us with
  | nil => intro set v; simp
  | cons u rest ih =>
    intro set v
    rw [List.foldl_cons, ih, mem_insertIfAbsent]
    simp only [List.mem_cons]
    tauto

theorem foldl_insertIfAbsent_nodup :
    ∀ (us : List (List Char)) (set : List (List Char)),
      set.Nodup → (us.foldl insertIfAbsent set).Nodup := by
  intro us
  induction us with
  | nil => intro set h; simpa using h
  | cons u rest ih =>
    intro set h
    rw [List.foldl_cons]
    exact ih _ (nodup_insertIfAbsent h)

theorem mem_collect_urls {d : List Char} {set : List (List Char)}
    {v : List Char} :
    v ∈ collect_urls d set ↔ v ∈ set ∨ v ∈ (scan d).1.map Piece.url := by
  unfold collect_urls
  exact foldl_insertIfAbsent_mem _ set v

theorem mem_collect_all :
    ∀ (docs : List (List Char)) (set : List (List Char)) (v : List Char),
      v ∈ docs.foldl (fun s d => collect_urls d s) set ↔
        v ∈ set ∨ ∃ d ∈ docs, v ∈ (scan d).1.map Piece.url := by
  intro docs
  induction docs with
  | nil => intro set v; simp
  | cons d rest ih =>
    intro set v
    rw [List.foldl_cons, ih, mem_collect_urls]
    simp only [List.mem_cons]
    constructor
    · rintro ((hv | hv) | ⟨d2, hd2, hv⟩)
      · exact Or.inl hv
      · exact Or.inr ⟨d, Or.inl rfl, hv⟩
      · exact Or.inr ⟨d2, Or.inr hd2, hv⟩
    · rintro (hv | ⟨d2, hd2 | hd2, hv⟩)
      · exact Or.inl (Or.inl hv)
      · exact Or.inl (Or.inr (hd2 ▸ hv))
      · exact Or.inr ⟨d2, hd2, hv⟩

theorem collect_all_nodup (docs : List (List Char)) :
    (collect_all docs).Nodup := by
  unfold collect_all
  have : ∀ (ds : List (List Char)) (set : List (List Char)), set.Nodup →
      (ds.foldl (fun s d => collect_urls d s) set).Nodup := by
    intro ds
    induction ds with
    | nil => intro set h; simpa using h
    | cons d rest ih =>
      intro set h
      rw [List.foldl_cons]
      exact ih _ (foldl_insertIfAbsent_nodup _ set h)
  exact this docs [] (by simp)

theorem trace_count {l : List (List Char)} {u : List Char} (h : l.Nodup) :
    l.count u = if u ∈ l then 1 else 0 := by
  induction l with
  | nil => simp
  | cons b l ih =>
    have hb : b ∉ l := (List.nodup_cons.mp h).1
    have hl : l.Nodup := (List.nodup_cons.mp h).2
    by_cases hub : u = b
    · subst hub
      simp [List.count_cons, ih hl, hb]
    · simp [List.count_cons, ih hl, hub]

/-- C6: deduplication — the URL set collected across all documents is
duplicate-free and contains exactly the URLs captured in some document;
download_images dispatches exactly one fetch per set element (fetch-trace
count 1 for members, 0 for non-members), so each distinct URL is fetched at
most once per run; and any two occurrences with the same captured URL, in
any documents, resolve through the same mapping lookup, hence to the same
local link. -/
theorem C6_dedup_single_fetch
    (docs : List (List Char)) (dir pfx : List Char)
    (fetch : List Char → Option (List Nat))
    (fsWrite : List Char → List Nat → Bool) :
    (collect_all docs).Nodup ∧
    (∀ u, u ∈ collect_all docs ↔ ∃ d ∈ docs, u ∈ (scan d).1.map Piece.url) ∧
    (∀ u, ((download_images (collect_all docs) dir pfx fetch fsWrite).1).count u
        = if u ∈ collect_all docs then 1 else 0) ∧
    (∀ (m : List (List Char × List Char)) (p1 p2 : Piece),
      p1.url = p2.url → List.lookup p1.url m = List.lookup p2.url m) := by
  refine ⟨collect_all_nodup docs, ?_, ?_, ?_⟩
  · intro u
    have h := mem_collect_all docs [] u
    simpa [collect_all] using h
  · intro u
    rw [download_images_trace]
    exact trace_count (collect_all_nodup docs)
  · intro m p1 p2 h
    rw [h]

/-- Witness for C6: two occurrences of the same URL in different documents
look up the same link in the shared mapping. -/
theorem C6_dedup_single_fetch_witness :
    List.lookup (Piece.url ⟨[], "![a](".data, "http://u".data, ")".data⟩)
        [("http://u".data, "/L/x".data)] =
      List.lookup (Piece.url ⟨"y ".data, "![b](".data, "http://u".data, ")".data⟩)
        [("http://u".data, "/L/x".data)] :=
  (C6_dedup_single_fetch [] [] [] (fun _ => none) (fun _ _ => false)).2.2.2
    [("http://u".data, "/L/x".data)]
    ⟨[], "![a](".data, "http://u".data, ")".data⟩
    ⟨"y ".data, "![b](".data, "http://u".data, ")".data⟩ rfl

theorem scheduler_invariant {K N : Nat} {s : SchedulerState}
    (h : SchedulerReachable K N s) : s.available + s.inFlight = K := by
  induction h with
  | init => rfl
  | step hr hs ih =>
    cases hs with
    | dispatch hp ha =>
      simp only at ih ⊢
      omega
    | finish hf =>
      simp only at ih ⊢
      omega

/-- C7: with concurrency_limit K, in every state reachable during
download_images no more than K fetch+materialize tasks are simultaneously
in flight: dispatch happens only after acquiring one of the K permits and a
permit is released only at a task's terminal state, so permits-free plus
tasks-in-flight is invariantly K. -/
theorem C7_concurrency_ceiling {K N : Nat} {s : SchedulerState}
    (h : SchedulerReachable K N s) : s.inFlight ≤ K := by
  have hinv := scheduler_invariant h
  omega

/-- Witness for C7: with K = 2 and 5 pending URLs, after one dispatch the
state has 1 task in flight, within the ceiling 2. -/
theorem C7_concurrency_ceiling_witness :
    SchedulerState.inFlight ⟨1, 1, 4, 0⟩ ≤ 2 :=
  C7_concurrency_ceiling (K := 2) (N := 5)
    (SchedulerReachable.step SchedulerReachable.init
      (SchedulerStep.dispatch ⟨2, 0, 5, 0⟩ (by decide) (by decide)))

theorem collect_phase_error_of_entry
    (readFile : List Char → Except Unit (List Char)) :
    ∀ (entries : List (Except Unit (List Char)))
      (acc : List (List Char) × List (List Char)),
      Except.error () ∈ entries →
      ∃ e, collect_phase readFile entries acc = Except.error e := by
  intro entries
  induction entries with
  | nil => intro acc h; simp at h
  | cons entry rest ih =>
    intro acc h
    match entry with
    | Except.error _ => exact ⟨ProcessError.glob, rfl⟩
    | Except.ok path =>
      have hrest : Except.error () ∈ rest := by
        rcases List.mem_cons.mp h with h1 | h1
        · exact absurd h1 (by simp)
        · exact h1
      match hr : readFile path with
      | Except.error _ => exact ⟨ProcessError.io, by simp [collect_phase, hr]⟩
      | Except.ok content =>
        obtain ⟨e, he⟩ := ih (collect_urls content acc.1, acc.2 ++ [path]) hrest
        exact ⟨e, by simp [collect_phase, hr, he]⟩

theorem rewrite_phase_ok
    (readFile : List Char → Except Unit (List Char))
    (writeFile : List Char → List Char → Except Unit Unit)
    (mapping : List (List Char × List Char)) :
    ∀ files : List (List Char),
      (∀ p ∈ files, ∃ c, readFile p = Except.ok c) →
      (∀ p c, writeFile p c = Except.ok ()) →
      ∃ out, rewrite_phase readFile writeFile mapping files = Except.ok out := by
  intro files
  induction files with
  | nil => intro _ _; exact ⟨[], rfl⟩
  | cons p rest ih =>
    intro hr hw
    obtain ⟨c, hc⟩ := hr p (List.mem_cons_self p rest)
    obtain ⟨out, hout⟩ :=
      ih (fun q hq => hr q (List.mem_cons_of_mem p hq)) hw
    exact ⟨(p, replace_urls c mapping) :: out,
      by simp [rewrite_phase, hc, hw p (replace_urls c mapping), hout]⟩

set_option maxRecDepth 100000 in
/-- Counterexample to C8: a run over one readable document containing one
fetchable URL, whose write-back fails, performs a download (the fetch trace
is non-empty) and then aborts with an error — so a fatal-to-the-run error
class exists that is not a discovery error and does not occur before the
downloads start. -/
theorem C8_counterexample :
    (process_markdown [Except.ok "a.md".data]
        (fun _ => Except.ok "![x](http://u)".data)
        (fun _ _ => Except.error ())
        "o".data "/img".data (fun _ => some []) (fun _ _ => true)).2 =
      Except.error ProcessError.io ∧
    (process_markdown [Except.ok "a.md".data]
        (fun _ => Except.ok "![x](http://u)".data)
        (fun _ _ => Except.error ())
        "o".data "/img".data (fun _ => some []) (fun _ _ => true)).1 =
      ["http://u".data] :=
  ⟨rfl, rfl⟩

/-- C8 as amended: a document-enumeration or document-read failure in the
collection phase is propagated and aborts the whole run before any download
starts; per-URL fetch or save failures never abort the batch (with readable
documents and succeeding write-backs the run completes whatever the network
oracles do); but read/write failures in the rewrite phase are also fatal
and occur after the downloads, so discovery errors are not the only fatal
class. -/
theorem C8_discovery_failure_aborts
    (entries : List (Except Unit (List Char)))
    (readFile : List Char → Except Unit (List Char))
    (writeFile : List Char → List Char → Except Unit Unit)
    (dir pfx : List Char)
    (fetch : List Char → Option (List Nat))
    (fsWrite : List Char → List Nat → Bool) :
    (∀ e, collect_phase readFile entries ([], []) = Except.error e →
      process_markdown entries readFile writeFile dir pfx fetch fsWrite =
        ([], Except.error e)) ∧
    (Except.error () ∈ entries →
      ∃ e, process_markdown entries readFile writeFile dir pfx fetch fsWrite =
        ([], Except.error e)) ∧
    (∀ set files, collect_phase readFile entries ([], []) =
        Except.ok (set, files) →
      (∀ p ∈ files, ∃ c, readFile p = Except.ok c) →
      (∀ p c, writeFile p c = Except.ok ()) →
      ∃ out, process_markdown entries readFile writeFile dir pfx fetch fsWrite =
        ((download_images set dir pfx fetch fsWrite).1, Except.ok out)) := by
  refine ⟨?_, ?_, ?_⟩
  · intro e he
    unfold process_markdown
    rw [he]
  · intro hmem
    obtain ⟨e, he⟩ := collect_phase_error_of_entry readFile entries ([], []) hmem
    refine ⟨e, ?_⟩
    unfold process_markdown
    rw [he]
  · intro set files hc hr hw
    obtain ⟨out, hout⟩ :=
      rewrite_phase_ok readFile writeFile
        (download_images set dir pfx fetch fsWrite).2 files hr hw
    refine ⟨out, ?_⟩
    unfold process_markdown
    rw [hc]
    dsimp only
    rw [hout]

/-- Witness for C8 (amended): a failing glob entry aborts the run with a
glob error and an empty fetch trace — no download starts. -/
theorem C8_discovery_failure_aborts_witness :
    ∃ e, process_markdown [Except.error ()]
        (fun _ => Except.ok "".data) (fun _ _ => Except.ok ())
        "o".data "/img".data (fun _ => none) (fun _ _ => false) =
      ([], Except.error e) :=
  (C8_discovery_failure_aborts [Except.error ()]
      (fun _ => Except.ok "".data) (fun _ _ => Except.ok ())
      "o".data "/img".data (fun _ => none) (fun _ _ => false)).2.1
    (List.mem_cons_self _ _)
